import Mathlib

/- Verification of the ordering engine of the drag-and-drop custom sort
   VS Code extension (src/extension.js): the persisted order table, the
   listing merge performed by FileSystemProvider.getChildren, and the
   drag-and-drop reorder algorithm of FileDragAndDropController.handleDrop.
   Filesystem paths are modelled as lists of path segments; JS arrays are
   Lean lists; fallible host calls are modelled with Option.  -/

set_option maxHeartbeats 1000000

/-- vscode.FileType, restricted to the two kinds the extension distinguishes. -/
inductive FileType where
  | file
  | directory
deriving DecidableEq, Repr

/-- A (name, kind) pair as returned by vscode.workspace.fs.readDirectory. -/
structure Entry where
  name : String
  type : FileType
deriving DecidableEq, Repr

/-- JS Array.prototype.indexOf on an array of strings: the first index of
    the element, or -1 when it is absent. -/
def jsIndexOf (l : List String) (x : String) : Int :=
  if x ∈ l then (List.indexOf x l : Int) else -1

/-- The reserved names filtered out of every listing by
    FileSystemProvider.getChildren (extension.js line 237). -/
def excludedNames : List String := ["node_modules", ".git", ".DS_Store", ".vscode"]

/-- Model of String.prototype.localeCompare as the sign of code-point
    comparison.  The locale-specific refinement of the comparison does not
    affect any claim (only the permutation property of the sort is used). -/
def localeCompare (a b : String) : Int :=
  match compare a b with
  | .lt => -1
  | .eq => 0
  | .gt => 1

/-- The comparator passed to items.sort in getChildren (lines 242-257). -/
def sortCmp (order : List String) (a b : Entry) : Int :=
  let indexA := jsIndexOf order a.name
  let indexB := jsIndexOf order b.name
  if indexA ≠ -1 ∧ indexB ≠ -1 then indexA - indexB
  else if indexA ≠ -1 then -1
  else if indexB ≠ -1 then 1
  else if a.type = b.type then localeCompare a.name b.name
  else if a.type = FileType.directory then -1 else 1

/-- One insertion step of the insertion sort modelling Array.prototype.sort. -/
def insertCmp (le : Entry → Entry → Bool) (x : Entry) : List Entry → List Entry
  | [] => [x]
  | y :: ys => if le x y then x :: y :: ys else y :: insertCmp le x ys

/-- Insertion sort modelling Array.prototype.sort with a comparator
    (ES2019+ sorts are stable; the claims only use that the result is a
    permutation of the input). -/
def sortEntries (le : Entry → Entry → Bool) : List Entry → List Entry
  | [] => []
  | x :: xs => insertCmp le x (sortEntries le xs)

/-- FileSystemProvider.getChildren (extension.js lines 233-261).
    readDir is the result of vscode.workspace.fs.readDirectory on the
    element's uri; none models the call throwing (caught at line 260). -/
def getChildren (readDir : Option (List Entry)) (order : List String) : List Entry :=
  match readDir with
  | none => []
  | some children =>
    let items := children.filter (fun e => !(excludedNames.contains e.name))
    sortEntries (fun a b => decide (sortCmp order a b ≤ 0)) items

theorem insertCmp_perm (le : Entry → Entry → Bool) (x : Entry) (l : List Entry) :
    (insertCmp le x l).Perm (x :: l) := by
  induction l with
  | nil => simp [insertCmp]
  | cons y ys ih =>
    simp only [insertCmp]
    by_cases h : le x y
    · simp [h]
    · simp only [h]
      exact (List.Perm.cons y ih).trans (List.Perm.swap x y ys)

theorem sortEntries_perm (le : Entry → Entry → Bool) (l : List Entry) :
    (sortEntries le l).Perm l := by
  induction l with
  | nil => simp [sortEntries]
  | cons x xs ih =>
    exact ((insertCmp_perm le x (sortEntries le xs)).trans (List.Perm.cons x ih))

/-- path.dirname on a segment-list path. -/
def dirnameP (p : List String) : List String := p.dropLast

/-- path.basename on a segment-list path. -/
def basenameP (p : List String) : String := p.getLastD ""

/-- A tree item as passed to handleDrop as the drop target. -/
structure TEntry where
  path : List String
  type : FileType
deriving DecidableEq, Repr

/-- Parent-uri resolution at the top of handleDrop (lines 280-286): the
    workspace root without a target, the target itself for a directory
    target, and the target's parent for a file target. -/
def dropParent (root : List String) (target : Option TEntry) : List String :=
  match target with
  | none => root
  | some t => if t.type = FileType.directory then t.path else dirnameP t.path

/-- SortOrderManager.getOrder (lines 27-35) acting on the cache: the
    stored list at the key, or [] when the key is absent.  Keys are
    modelled directly by directory paths; the source keys the cache by the
    normalized root-relative path, a bijection on workspace directories. -/
def getOrderC (cache : List (List String × List String)) (dir : List String) : List String :=
  match cache.find? (fun e => e.1 == dir) with
  | some e => e.2
  | none => []

/-- JS object property assignment on the cache: replaces the value at an
    existing key in place, otherwise appends the new key. -/
def setOrderC (cache : List (List String × List String)) (dir : List String)
    (v : List String) : List (List String × List String) :=
  if cache.any (fun e => e.1 == dir) then
    cache.map (fun e => if e.1 == dir then (dir, v) else e)
  else cache ++ [(dir, v)]

/-- The live children names of a directory in listing order: models
    readDirectory(parentUri) followed by children.map(c => c[0]), with the
    filesystem modelled as the list of existing file paths. -/
def childrenOf (fs : List (List String)) (dir : List String) : List String :=
  (fs.filter (fun p => p.dropLast == dir)).map basenameP

/-- Lines 290-294 of handleDrop: an empty stored order is replaced by the
    live children names; a non-empty stored order is kept unchanged. -/
def freezeOrder (fs : List (List String)) (dir : List String)
    (order : List String) : List String :=
  if order.length = 0 then childrenOf fs dir else order

/-- CASE 1.A of handleDrop (lines 307-320): same-folder reorder onto a
    file target.  toIndex falls back to order.length when the target name
    is absent; the source is spliced out and reinserted.  Returns the new
    order and the orderChanged contribution. -/
def reorderOnFile (order : List String) (fileName targetName : String) :
    List String × Bool :=
  let toIndex0 := jsIndexOf order targetName
  let toIndex := if toIndex0 = -1 then (order.length : Int) else toIndex0
  let fromIndex := jsIndexOf order fileName
  if fromIndex ≠ -1 ∧ fromIndex ≠ toIndex then
    let removed := order.eraseIdx fromIndex.toNat
    let toIndex1 := if fromIndex < toIndex then toIndex - 1 else toIndex
    (List.insertIdx toIndex1.toNat fileName removed, true)
  else (order, false)

/-- CASE 2.A of handleDrop (lines 334-342): same-folder move to the end;
    a no-op when the source is absent from the order or already last. -/
def moveToEnd (order : List String) (fileName : String) : List String × Bool :=
  let fromIndex := jsIndexOf order fileName
  if fromIndex ≠ -1 ∧ fromIndex ≠ (order.length : Int) - 1 then
    (order.eraseIdx fromIndex.toNat ++ [fileName], true)
  else (order, false)

/-- Lines 350-357 of handleDrop (CASE 2.B after a successful rename):
    push the moved name, first removing a pre-existing occurrence. -/
def appendMoved (order : List String) (fileName : String) : List String :=
  if !(order.contains fileName) then order ++ [fileName]
  else
    let idx := jsIndexOf order fileName
    let removed := if idx ≠ -1 then order.eraseIdx idx.toNat else order
    removed ++ [fileName]

/-- The guarded append of the explorerSort.newFile, newFolder and paste
    commands (lines 89-91, 106-108 and 137-139): append only when the
    name is not already present. -/
def guardedAppend (currentOrder : List String) (fileName : String) : List String :=
  if !(currentOrder.contains fileName) then currentOrder ++ [fileName]
  else currentOrder

/-- The mutable state surrounding a drop batch: the filesystem (list of
    existing file paths in listing order), the in-memory orderCache, the
    number of completed save calls and the renames issued so far. -/
structure Sys where
  fs : List (List String)
  cache : List (List String × List String)
  saves : Nat
  moves : List (List String × List String)
deriving DecidableEq, Repr

/-- vscode.workspace.fs.rename with overwrite:false throws unless the
    source exists and the destination does not. -/
def renameOk (fs : List (List String)) (src dest : List String) : Bool :=
  fs.contains src && !(fs.contains dest)

def renameFs (fs : List (List String)) (src dest : List String) :
    List (List String) :=
  fs.map (fun p => if p == src then dest else p)

/-- The state local to one handleDrop batch: the local variable order,
    whether that variable aliases the cache entry for parent (JS reference
    semantics: getOrder at line 34 returns the cached array itself), and
    the orderChanged flag. -/
structure Batch where
  sys : Sys
  parent : List String
  order : List String
  aliased : Bool
  orderChanged : Bool
deriving DecidableEq, Repr

/-- A mutation of the local order array: under aliasing the splice is
    immediately visible in the cache entry as well. -/
def commitOrder (b : Batch) (newOrder : List String) : Batch :=
  { b with
    order := newOrder,
    orderChanged := true,
    sys :=
      if b.aliased then
        { b.sys with cache := setOrderC b.sys.cache b.parent newOrder }
      else b.sys }

/-- CASE 2 of the loop body (lines 334-361): drop on a folder or on empty
    space.  Same-folder sources move to the end; foreign sources are
    renamed into parent (exceptions caught, skipping the source) and
    appended. -/
def processSourceNoTarget (b : Batch) (src : List String)
    (sourceParent : List String) (fileName : String) : Batch :=
  if sourceParent = b.parent then
    let r := moveToEnd b.order fileName
    if r.2 then commitOrder b r.1 else b
  else
    let dest := b.parent ++ [fileName]
    if src ≠ dest then
      if renameOk b.sys.fs src dest then
        let b1 := { b with sys :=
          { b.sys with fs := renameFs b.sys.fs src dest,
                       moves := b.sys.moves ++ [(src, dest)] } }
        commitOrder b1 (appendMoved b1.order fileName)
      else b
    else b

/-- The body of the per-source loop of handleDrop (lines 297-366).  The
    source computes toIndex once before the same/different-folder split;
    as the order is not mutated in between, computing it in each branch
    (inside reorderOnFile for 1.A) is equivalent. -/
def processSource (target : Option TEntry) (b : Batch) (src : List String) :
    Batch :=
  let sourceParent := dirnameP src
  let fileName := basenameP src
  match target with
  | some t =>
    if t.type = FileType.file then
      let targetName := basenameP t.path
      if sourceParent = b.parent then
        let r := reorderOnFile b.order fileName targetName
        if r.2 then commitOrder b r.1 else b
      else
        let toIndex0 := jsIndexOf b.order targetName
        let toIndex := if toIndex0 = -1 then (b.order.length : Int) else toIndex0
        let dest := b.parent ++ [fileName]
        if renameOk b.sys.fs src dest then
          let b1 := { b with sys :=
            { b.sys with fs := renameFs b.sys.fs src dest,
                         moves := b.sys.moves ++ [(src, dest)] } }
          commitOrder b1 (List.insertIdx toIndex.toNat fileName b1.order)
        else b
    else processSourceNoTarget b src sourceParent fileName
  | none => processSourceNoTarget b src sourceParent fileName

/-- Lines 280-295 of handleDrop: resolve the parent, fetch the stored
    order, and freeze an empty order from the live listing.  The local
    order aliases the cache entry exactly when the cached array itself
    (non-empty) was returned by getOrder. -/
def dropInit (root : List String) (target : Option TEntry) (sys : Sys) : Batch :=
  let parent := dropParent root target
  let order0 := getOrderC sys.cache parent
  if order0.length = 0 then
    ⟨sys, parent, childrenOf sys.fs parent, false, false⟩
  else
    ⟨sys, parent, order0, true, false⟩

/-- The batch state after processing the first k source lines. -/
def handleDropAfter (root : List String) (target : Option TEntry)
    (sources : List (List String)) (sys : Sys) (k : Nat) : Batch :=
  (sources.take k).foldl (processSource target) (dropInit root target sys)

/-- FileDragAndDropController.handleDrop (lines 276-370) on a batch of
    already-parsed source paths: process every source, then persist once
    through updateOrder (line 368) iff the order changed; updateOrder sets
    the cache entry and performs one save. -/
def handleDrop (root : List String) (target : Option TEntry)
    (sources : List (List String)) (sys : Sys) : Sys :=
  let b := handleDropAfter root target sources sys sources.length
  if b.orderChanged then
    { b.sys with cache := setOrderC b.sys.cache b.parent b.order,
                 saves := b.sys.saves + 1 }
  else b.sys

/-- Lowercase hex digit character for n < 16, as produced by the \u
    escapes of JSON.stringify. -/
def hexDigit (n : Nat) : Char :=
  if n < 10 then Char.ofNat (48 + n) else Char.ofNat (87 + n)

/-- JSON.stringify escaping of one string character: quote and backslash,
    the named control escapes, \u00xx for the remaining control
    characters, and every other character verbatim. -/
def escapeChar (c : Char) : List Char :=
  if c = '"' then ['\\', '"']
  else if c = '\\' then ['\\', '\\']
  else if c = '\x08' then ['\\', 'b']
  else if c = '\x09' then ['\\', 't']
  else if c = '\x0a' then ['\\', 'n']
  else if c = '\x0c' then ['\\', 'f']
  else if c = '\x0d' then ['\\', 'r']
  else if c.toNat < 32 then
    ['\\', 'u', '0', '0', hexDigit (c.toNat / 16), hexDigit (c.toNat % 16)]
  else [c]

def escapeList : List Char → List Char
  | [] => []
  | c :: cs => escapeChar c ++ escapeList cs

/-- A JSON string literal for s, as emitted by JSON.stringify. -/
def quoteS (s : String) : List Char := '"' :: (escapeList s.data ++ ['"'])

/-- The tail of a pretty-printed JSON string array after its first
    element, as emitted by JSON.stringify(cache, null, 2) at nesting
    depth one: each further element after a comma, a newline and four
    spaces, then a newline and two spaces before the closing bracket. -/
def arrTail : List String → List Char
  | [] => '\n' :: ' ' :: ' ' :: [']']
  | x :: xs => ',' :: '\n' :: ' ' :: ' ' :: ' ' :: ' ' :: (quoteS x ++ arrTail xs)

/-- JSON.stringify(v, null, 2) for an array of strings at nesting depth
    one (a per-directory name list of the order table). -/
def stringifyArr : List String → List Char
  | [] => '[' :: [']']
  | x :: xs => '[' :: '\n' :: ' ' :: ' ' :: ' ' :: ' ' :: (quoteS x ++ arrTail xs)

/-- The tail of the serialized order table after its first member. -/
def memTail : List (String × List String) → List Char
  | [] => '\n' :: ['\x7d']
  | (k, v) :: ms =>
    ',' :: '\n' :: ' ' :: ' ' :: (quoteS k ++ ':' :: ' ' :: (stringifyArr v ++ memTail ms))

/-- SortOrderManager.save's serialization (line 53):
    JSON.stringify(orderCache, null, 2), with the cache modelled as an
    association list of keys in insertion order. -/
def stringifyTable : List (String × List String) → List Char
  | [] => '\x7b' :: ['\x7d']
  | (k, v) :: ms =>
    '\x7b' :: '\n' :: ' ' :: ' ' :: (quoteS k ++ ':' :: ' ' :: (stringifyArr v ++ memTail ms))

def isWsChar (c : Char) : Bool := c = ' ' || c = '\n' || c = '\t' || c = '\r'

def skipWs : List Char → List Char
  | [] => []
  | c :: cs => if isWsChar c then skipWs cs else c :: cs

/-- Value of a hex digit, in either case, as accepted by JSON.parse. -/
def hexVal (c : Char) : Option Nat :=
  if 48 ≤ c.toNat ∧ c.toNat ≤ 57 then some (c.toNat - 48)
  else if 97 ≤ c.toNat ∧ c.toNat ≤ 102 then some (c.toNat - 87)
  else if 65 ≤ c.toNat ∧ c.toNat ≤ 70 then some (c.toNat - 55)
  else none

def unescapeChar (e : Char) : Option Char :=
  if e = '"' then some '"'
  else if e = '\\' then some '\\'
  else if e = '/' then some '/'
  else if e = 'b' then some '\x08'
  else if e = 'f' then some '\x0c'
  else if e = 'n' then some '\x0a'
  else if e = 'r' then some '\x0d'
  else if e = 't' then some '\x09'
  else none

/-- The body of a JSON string literal after the opening quote: the
    decoded characters and the input remaining after the closing quote.
    As in JSON.parse, raw control characters and malformed escapes are
    rejected. -/
def parseStringBody : List Char → Option (List Char × List Char)
  | [] => none
  | c :: cs =>
    if c = '"' then some ([], cs)
    else if c = '\\' then
      match cs with
      | [] => none
      | e :: cs1 =>
        if e = 'u' then
          match cs1 with
          | h1 :: h2 :: h3 :: h4 :: cs2 =>
            match hexVal h1, hexVal h2, hexVal h3, hexVal h4, parseStringBody cs2 with
            | some a, some b, some c2, some d, some (v, r) =>
              some (Char.ofNat (((a * 16 + b) * 16 + c2) * 16 + d) :: v, r)
            | _, _, _, _, _ => none
          | _ => none
        else
          match unescapeChar e, parseStringBody cs1 with
          | some c2, some (v, r) => some (c2 :: v, r)
          | _, _ => none
    else if c.toNat < 32 then none
    else
      match parseStringBody cs with
      | some (v, r) => some (c :: v, r)
      | none => none

def parseString : List Char → Option (String × List Char)
  | [] => none
  | c :: cs =>
    if c = '"' then
      match parseStringBody cs with
      | some (v, r) => some (String.mk v, r)
      | none => none
    else none

/-- The elements of a JSON string array, starting at the first string
    literal, returning the input remaining after the closing bracket.
    The fuel argument bounds the number of elements; every caller passes
    at least the input length plus one, which can never be exhausted
    before a genuine parse error, since each element consumes input. -/
def parseElemsF : Nat → List Char → Option (List String × List Char)
  | 0, _ => none
  | fuel + 1, s =>
    match parseString s with
    | none => none
    | some (v, r) =>
      match skipWs r with
      | ',' :: r2 =>
        match parseElemsF fuel (skipWs r2) with
        | some (vs, r3) => some (v :: vs, r3)
        | none => none
      | ']' :: r2 => some ([v], r2)
      | _ => none

/-- A JSON array of strings including its brackets. -/
def parseArrayF (fuel : Nat) (s : List Char) : Option (List String × List Char) :=
  match s with
  | '[' :: r =>
    match skipWs r with
    | ']' :: r2 => some ([], r2)
    | r2 => parseElemsF fuel r2
  | _ => none

/-- The members of the serialized order table, starting at the first key
    string, returning the input remaining after the closing brace. -/
def parseMembersF : Nat → List Char → Option (List (String × List String) × List Char)
  | 0, _ => none
  | fuel + 1, s =>
    match parseString s with
    | none => none
    | some (k, r) =>
      match skipWs r with
      | ':' :: r2 =>
        match parseArrayF fuel (skipWs r2) with
        | none => none
        | some (v, r3) =>
          match skipWs r3 with
          | ',' :: r4 =>
            match parseMembersF fuel (skipWs r4) with
            | some (ms, r5) => some ((k, v) :: ms, r5)
            | none => none
          | '\x7d' :: r4 => some ([(k, v)], r4)
          | _ => none
      | _ => none

/-- JSON.parse restricted to the JSON shape save produces: an object
    mapping string keys to arrays of strings, with arbitrary whitespace,
    requiring the whole input to be consumed.  none models the exception
    of JSON.parse on malformed input.  (On well-formed JSON of any other
    shape init would succeed with a non-table value; save never writes
    such a document, and no claim depends on that case.) -/
def parseTable (s : List Char) : Option (List (String × List String)) :=
  match skipWs s with
  | '\x7b' :: r =>
    match skipWs r with
    | '\x7d' :: r2 => if (skipWs r2).isEmpty then some [] else none
    | r2 =>
      match parseMembersF (s.length + 1) r2 with
      | some (ms, r3) => if (skipWs r3).isEmpty then some ms else none
      | none => none
  | _ => none

/-- SortOrderManager.save (lines 46-58): the serialized document written
    to .vscode/sort-order.json. -/
def saveString (t : List (String × List String)) : List Char := stringifyTable t

/-- SortOrderManager.init (lines 16-25): decode and parse the order file,
    with any read or parse failure caught, falling back to the empty
    table.  none models a missing or unreadable file. -/
def initTable (contents : Option (List Char)) : List (String × List String) :=
  match contents with
  | none => []
  | some cs =>
    match parseTable cs with
    | some t => t
    | none => []

theorem hexVal_hexDigit : ∀ n < 16, hexVal (hexDigit n) = some n := by decide

theorem parseStringBody_escape (s : List Char) :
    ∀ rest, parseStringBody (escapeList s ++ '"' :: rest) = some (s, rest) := by
  induction s with
  | nil =>
    intro rest
    simp only [escapeList, List.nil_append]
    rw [parseStringBody.eq_def]
    simp
  | cons c cs ih =>
    intro rest
    simp only [escapeList, List.append_assoc]
    by_cases h1 : c = '"'
    · subst h1
      simp only [escapeChar]
      rw [parseStringBody.eq_def]
      simp [unescapeChar, ih]
    · by_cases h2 : c = '\\'
      · subst h2
        simp only [escapeChar]
        rw [parseStringBody.eq_def]
        simp [unescapeChar, ih]
      · by_cases h3 : c = '\x08'
        · subst h3
          simp only [escapeChar]
          rw [parseStringBody.eq_def]
          simp [unescapeChar, ih]
        · by_cases h4 : c = '\x09'
          · subst h4
            simp only [escapeChar]
            rw [parseStringBody.eq_def]
            simp [unescapeChar, ih]
          · by_cases h5 : c = '\x0a'
            · subst h5
              simp only [escapeChar]
              rw [parseStringBody.eq_def]
              simp [unescapeChar, ih]
            · by_cases h6 : c = '\x0c'
              · subst h6
                simp only [escapeChar]
                rw [parseStringBody.eq_def]
                simp [unescapeChar, ih]
              · by_cases h7 : c = '\x0d'
                · subst h7
                  simp only [escapeChar]
                  rw [parseStringBody.eq_def]
                  simp [unescapeChar, ih]
                · by_cases h8 : c.toNat < 32
                  · have hd1 := hexVal_hexDigit (c.toNat / 16) (by omega)
                    have hd2 := hexVal_hexDigit (c.toNat % 16) (by omega)
                    have hval : ((0 * 16 + 0) * 16 + c.toNat / 16) * 16 + c.toNat % 16 = c.toNat := by
                      omega
                    have h0 : hexVal '0' = some 0 := by decide
                    simp only [escapeChar, h1, h2, h3, h4, h5, h6, h7, h8, if_false, if_true,
                      if_neg, if_pos]
                    rw [parseStringBody.eq_def]
                    simp [h0, hd1, hd2, ih, hval]
                    have hval2 : c.toNat / 16 * 16 + c.toNat % 16 = c.toNat := by omega
                    rw [hval2, Char.ofNat_toNat]
                  · simp only [escapeChar, h1, h2, h3, h4, h5, h6, h7, h8, if_false, if_neg]
                    rw [parseStringBody.eq_def]
                    simp [h1, h2, h8, ih]

theorem parseString_quote (s : String) (rest : List Char) :
    parseString (quoteS s ++ rest) = some (s, rest) := by
  simp only [quoteS, List.cons_append, List.append_assoc, List.singleton_append]
  rw [parseString.eq_def]
  simp [parseStringBody_escape]

theorem skipWs_quote (x : String) (z : List Char) :
    skipWs (quoteS x ++ z) = quoteS x ++ z := by
  simp [quoteS, skipWs, isWsChar]

theorem skipWs_arr (v : List String) (z : List Char) :
    skipWs (stringifyArr v ++ z) = stringifyArr v ++ z := by
  rcases v with _ | ⟨x, xs⟩ <;> simp [stringifyArr, skipWs, isWsChar]

theorem parseElemsF_rt (xs : List String) :
    ∀ (x : String) (rest : List Char) (fuel : Nat), xs.length < fuel →
      parseElemsF fuel (quoteS x ++ arrTail xs ++ rest) = some (x :: xs, rest) := by
  induction xs with
  | nil =>
    intro x rest fuel hf
    rcases fuel with _ | fuel
    · omega
    · simp only [parseElemsF, List.append_assoc]
      rw [parseString_quote]
      simp [arrTail, skipWs, isWsChar]
  | cons y ys ih =>
    intro x rest fuel hf
    rcases fuel with _ | fuel
    · omega
    · simp only [parseElemsF, List.append_assoc]
      have hsk1 : skipWs (arrTail (y :: ys) ++ rest)
          = ',' :: '\n' :: ' ' :: ' ' :: ' ' :: ' ' :: (quoteS y ++ (arrTail ys ++ rest)) := by
        simp [arrTail, skipWs, isWsChar]
      have hsk2 : skipWs ('\n' :: ' ' :: ' ' :: ' ' :: ' ' :: (quoteS y ++ (arrTail ys ++ rest)))
          = quoteS y ++ (arrTail ys ++ rest) := by
        simp [skipWs, isWsChar, quoteS]
      have hih := ih y rest fuel (by simp [List.length_cons] at hf; omega)
      simp only [List.append_assoc] at hih
      simp only [parseString_quote, hsk1, hsk2, hih]

theorem parseArrayF_rt (v : List String) (rest : List Char) (fuel : Nat)
    (hf : v.length ≤ fuel) :
    parseArrayF fuel (stringifyArr v ++ rest) = some (v, rest) := by
  rcases v with _ | ⟨x, xs⟩
  · simp [stringifyArr, parseArrayF, skipWs, isWsChar]
  · simp only [stringifyArr, quoteS, List.cons_append, List.append_assoc,
      List.singleton_append]
    rw [parseArrayF.eq_def]
    have hsk : skipWs ('\n' :: ' ' :: ' ' :: ' ' :: ' ' :: '"' ::
          (escapeList x.data ++ '"' :: (arrTail xs ++ rest)))
        = '"' :: (escapeList x.data ++ '"' :: (arrTail xs ++ rest)) := by
      simp [skipWs, isWsChar]
    have hih := parseElemsF_rt xs x rest fuel (by simp [List.length_cons] at hf; omega)
    simp only [quoteS, List.cons_append, List.append_assoc, List.singleton_append,
      List.nil_append] at hih
    simp [hsk, hih]

/-- Size measure for fuel sufficiency: one unit per member plus the
    element count of each member's array. -/
def tableSize : List (String × List String) → Nat
  | [] => 0
  | (_, v) :: ms => 1 + v.length + tableSize ms

theorem parseMembersF_rt (ms : List (String × List String)) :
    ∀ (k : String) (v : List String) (rest : List Char) (fuel : Nat),
      tableSize ((k, v) :: ms) ≤ fuel →
      parseMembersF fuel
          (quoteS k ++ ':' :: ' ' :: (stringifyArr v ++ (memTail ms ++ rest)))
        = some ((k, v) :: ms, rest) := by
  induction ms with
  | nil =>
    intro k v rest fuel hf
    rcases fuel with _ | fuel
    · simp [tableSize] at hf
    · simp only [parseMembersF]
      have hr := parseString_quote k (':' :: ' ' :: (stringifyArr v ++ (memTail [] ++ rest)))
      have hsk1 : skipWs (':' :: ' ' :: (stringifyArr v ++ (memTail [] ++ rest)))
          = ':' :: ' ' :: (stringifyArr v ++ (memTail [] ++ rest)) := by
        rw [skipWs.eq_def]
        simp [isWsChar]
      have hsk2 : skipWs (' ' :: (stringifyArr v ++ (memTail [] ++ rest)))
          = stringifyArr v ++ (memTail [] ++ rest) := by
        rw [skipWs.eq_def]
        simp [isWsChar, skipWs_arr]
      have harr := parseArrayF_rt v (memTail [] ++ rest) fuel
        (by simp [tableSize] at hf; omega)
      have hsk3 : skipWs (memTail [] ++ rest) = '\x7d' :: rest := by
        simp [memTail, skipWs, isWsChar]
      simp [hr, hsk1, hsk2, harr, hsk3]
  | cons m ms2 ih =>
    intro k v rest fuel hf
    rcases fuel with _ | fuel
    · simp [tableSize] at hf
    · rcases m with ⟨k2, v2⟩
      simp only [parseMembersF]
      have hr := parseString_quote k
        (':' :: ' ' :: (stringifyArr v ++ (memTail ((k2, v2) :: ms2) ++ rest)))
      have hsk1 : skipWs (':' :: ' ' :: (stringifyArr v ++ (memTail ((k2, v2) :: ms2) ++ rest)))
          = ':' :: ' ' :: (stringifyArr v ++ (memTail ((k2, v2) :: ms2) ++ rest)) := by
        rw [skipWs.eq_def]
        simp [isWsChar]
      have hsk2 : skipWs (' ' :: (stringifyArr v ++ (memTail ((k2, v2) :: ms2) ++ rest)))
          = stringifyArr v ++ (memTail ((k2, v2) :: ms2) ++ rest) := by
        rw [skipWs.eq_def]
        simp [isWsChar, skipWs_arr]
      have harr := parseArrayF_rt v (memTail ((k2, v2) :: ms2) ++ rest) fuel
        (by simp [tableSize] at hf; omega)
      have hsk3 : skipWs (memTail ((k2, v2) :: ms2) ++ rest)
          = ',' :: '\n' :: ' ' :: ' ' ::
              (quoteS k2 ++ ':' :: ' ' :: (stringifyArr v2 ++ (memTail ms2 ++ rest))) := by
        simp [memTail, skipWs, isWsChar]
      have hsk4 : skipWs ('\n' :: ' ' :: ' ' ::
            (quoteS k2 ++ ':' :: ' ' :: (stringifyArr v2 ++ (memTail ms2 ++ rest))))
          = quoteS k2 ++ ':' :: ' ' :: (stringifyArr v2 ++ (memTail ms2 ++ rest)) := by
        simp [skipWs, isWsChar, quoteS]
      have hih := ih k2 v2 rest fuel (by simp [tableSize] at hf ⊢; omega)
      simp [hr, hsk1, hsk2, harr, hsk3, hsk4, hih]

theorem arrTail_size (xs : List String) : xs.length ≤ (arrTail xs).length := by
  induction xs with
  | nil => simp [arrTail]
  | cons x xs ih => simp [arrTail]; omega

theorem stringifyArr_size (v : List String) : v.length ≤ (stringifyArr v).length := by
  rcases v with _ | ⟨x, xs⟩
  · simp [stringifyArr]
  · have := arrTail_size xs
    simp [stringifyArr]
    omega

theorem memTail_size (ms : List (String × List String)) :
    tableSize ms ≤ (memTail ms).length := by
  induction ms with
  | nil => simp [tableSize, memTail]
  | cons m ms ih =>
    rcases m with ⟨k, v⟩
    have := stringifyArr_size v
    simp [tableSize, memTail]
    omega

theorem stringifyTable_size (t : List (String × List String)) :
    tableSize t ≤ (stringifyTable t).length := by
  rcases t with _ | ⟨⟨k, v⟩, ms⟩
  · simp [tableSize, stringifyTable]
  · have h1 := stringifyArr_size v
    have h2 := memTail_size ms
    simp [tableSize, stringifyTable]
    omega

theorem parseTable_stringify (t : List (String × List String)) :
    parseTable (stringifyTable t) = some t := by
  rcases t with _ | ⟨⟨k, v⟩, ms⟩
  · simp [stringifyTable, parseTable, skipWs, isWsChar]
  · rw [parseTable.eq_def]
    simp only [stringifyTable, quoteS, List.cons_append, List.append_assoc,
      List.singleton_append, List.nil_append]
    set T : List Char :=
      '"' :: (escapeList k.data ++ '"' :: ':' :: ' ' :: (stringifyArr v ++ memTail ms)) with hT
    have hsk0 : skipWs ('\x7b' :: '\n' :: ' ' :: ' ' :: T)
        = '\x7b' :: '\n' :: ' ' :: ' ' :: T := by
      rw [skipWs.eq_def]
      simp [isWsChar]
    have hsk1 : skipWs ('\n' :: ' ' :: ' ' :: T) = T := by
      rw [hT]
      simp [skipWs, isWsChar]
    have hsize := stringifyTable_size ((k, v) :: ms)
    have hsize2 : tableSize ((k, v) :: ms) ≤ ('\x7b' :: '\n' :: ' ' :: ' ' :: T).length := by
      simp only [stringifyTable, quoteS, List.cons_append, List.append_assoc,
        List.singleton_append, List.nil_append] at hsize
      rw [hT]
      exact hsize
    have hmem := parseMembersF_rt ms k v [] (('\x7b' :: '\n' :: ' ' :: ' ' :: T).length + 1)
      (by omega)
    simp only [List.append_nil, quoteS, List.cons_append, List.append_assoc,
      List.singleton_append, List.nil_append] at hmem
    rw [← hT] at hmem
    simp only [hsk0, hsk1]
    set F : Nat := T.length + 1 + 1 + 1 + 1 + 1 with hF
    have hFe : ('\x7b' :: '\n' :: ' ' :: ' ' :: T).length + 1 = F := by
      rw [hF]
      simp
    rw [hFe] at hmem
    rw [hT] at hmem
    rw [hT]
    simp [hF, hT] at hmem
    simp [skipWs, hmem]

theorem getOrderC_setOrderC (cache : List (List String × List String))
    (dir : List String) (v : List String) :
    getOrderC (setOrderC cache dir v) dir = v := by
  induction cache with
  | nil => simp [setOrderC, getOrderC]
  | cons e es ih =>
    by_cases h : e.1 = dir
    · simp [setOrderC, getOrderC, h]
    · by_cases hh : es.any (fun x => x.1 == dir)
      · simp only [setOrderC, List.any_cons, hh] at ih ⊢
        simp [h, getOrderC, List.find?] at ih ⊢
        simpa [h] using ih
      · simp only [setOrderC, List.any_cons, hh] at ih ⊢
        simp [h, getOrderC, List.find?] at ih ⊢
        simpa [h] using ih

theorem jsIndexOf_of_mem {l : List String} {x : String} (h : x ∈ l) :
    jsIndexOf l x = (List.indexOf x l : Int) := by simp [jsIndexOf, h]

theorem indexOf_lt_length_of_mem {l : List String} {x : String} (h : x ∈ l) :
    List.indexOf x l < l.length := List.indexOf_lt_length.mpr h

/-- C2: for a drop onto a file target with the dragged source a sibling,
    both names present in the order at distinct indices, handleDrop
    removes the source at fromIndex and reinserts it immediately before
    the target's original position: at toIndex when fromIndex > toIndex,
    else at toIndex - 1; concretely [A,B,C,D] with D dropped onto B gives
    [A,D,B,C], and A dropped onto C gives [B,A,C,D]. -/
theorem spec_c2 :
    (∀ (order : List String) (fileName targetName : String),
        fileName ∈ order → targetName ∈ order →
        List.indexOf fileName order ≠ List.indexOf targetName order →
        reorderOnFile order fileName targetName =
          (List.insertIdx
            (if List.indexOf targetName order < List.indexOf fileName order then
              List.indexOf targetName order
            else List.indexOf targetName order - 1)
            fileName (order.eraseIdx (List.indexOf fileName order)), true))
    ∧ reorderOnFile ["A", "B", "C", "D"] "D" "B" = (["A", "D", "B", "C"], true)
    ∧ reorderOnFile ["A", "B", "C", "D"] "A" "C" = (["B", "A", "C", "D"], true) := by
  refine ⟨?_, by decide, by decide⟩
  intro order fileName targetName hf ht hne
  have hfi := jsIndexOf_of_mem hf
  have hti := jsIndexOf_of_mem ht
  simp only [reorderOnFile, hfi, hti]
  have h1 : ¬((List.indexOf targetName order : Int) = -1) := by omega
  have h2 : ((List.indexOf fileName order : Int) ≠ -1
      ∧ (List.indexOf fileName order : Int) ≠ (List.indexOf targetName order : Int)) := by
    constructor
    · omega
    · exact_mod_cast hne
  rw [if_neg h1, if_pos h2]
  have harg : (if (List.indexOf fileName order : Int) < (List.indexOf targetName order : Int)
        then (List.indexOf targetName order : Int) - 1
        else (List.indexOf targetName order : Int)).toNat
      = if List.indexOf targetName order < List.indexOf fileName order
        then List.indexOf targetName order
        else List.indexOf targetName order - 1 := by
    by_cases hlt : List.indexOf fileName order < List.indexOf targetName order
    · rw [if_pos (by exact_mod_cast hlt), if_neg (by omega)]
      omega
    · have hgt : List.indexOf targetName order < List.indexOf fileName order := by omega
      rw [if_neg (by exact_mod_cast hlt), if_pos hgt]
      omega
  rw [harg]
  have hf2 : ((List.indexOf fileName order : Int)).toNat = List.indexOf fileName order := by
    omega
  rw [hf2]

theorem moveToEnd_false (order : List String) (fileName : String)
    (h : (moveToEnd order fileName).2 = false) :
    (moveToEnd order fileName).1 = order := by
  by_cases hc : (jsIndexOf order fileName ≠ -1
      ∧ jsIndexOf order fileName ≠ (order.length : Int) - 1)
  · simp [moveToEnd, hc] at h
  · simp [moveToEnd, hc]

/-- C8: with no target entry or a folder target, a sibling source is
    removed from its current index and appended to the end of the stored
    order, a no-op when it is already last; concretely dropping A from
    [A,B,C] onto empty space yields [B,C,A]. -/
theorem spec_c8 :
    (∀ (sys : Sys) (root : List String) (target : Option TEntry) (src : List String),
        (∀ t, target = some t → t.type = FileType.directory) →
        dirnameP src = dropParent root target →
        getOrderC sys.cache (dropParent root target) ≠ [] →
        getOrderC (handleDrop root target [src] sys).cache (dropParent root target)
          = (moveToEnd (getOrderC sys.cache (dropParent root target)) (basenameP src)).1)
    ∧ (∀ (order : List String) (fileName : String), fileName ∈ order →
        (List.indexOf fileName order = order.length - 1 →
          moveToEnd order fileName = (order, false))
        ∧ (List.indexOf fileName order ≠ order.length - 1 →
          moveToEnd order fileName
            = (order.eraseIdx (List.indexOf fileName order) ++ [fileName], true)))
    ∧ moveToEnd ["A", "B", "C"] "A" = (["B", "C", "A"], true) := by
  refine ⟨?_, ?_, by decide⟩
  · intro sys root target src htf hsp hne
    have hlen : ¬((getOrderC sys.cache (dropParent root target)).length = 0) := by
      simpa [List.length_eq_zero] using hne
    have hinit : dropInit root target sys
        = ⟨sys, dropParent root target,
            getOrderC sys.cache (dropParent root target), true, false⟩ := by
      simp [dropInit, hlen]
    have hps : handleDropAfter root target [src] sys 1
        = processSourceNoTarget
            ⟨sys, dropParent root target,
              getOrderC sys.cache (dropParent root target), true, false⟩
            src (dirnameP src) (basenameP src) := by
      rcases target with _ | t
      · simp [handleDropAfter, hinit, processSource]
      · have hd := htf t rfl
        simp [handleDropAfter, hinit, processSource, hd]
    rcases hmv : moveToEnd (getOrderC sys.cache (dropParent root target)) (basenameP src)
      with ⟨o2, ch⟩
    rcases ch with _ | _
    · have ho2 : o2 = getOrderC sys.cache (dropParent root target) := by
        have := moveToEnd_false (getOrderC sys.cache (dropParent root target)) (basenameP src)
          (by rw [hmv])
        rw [hmv] at this
        exact this
      have hpnt : processSourceNoTarget
            ⟨sys, dropParent root target,
              getOrderC sys.cache (dropParent root target), true, false⟩
            src (dirnameP src) (basenameP src)
          = ⟨sys, dropParent root target,
              getOrderC sys.cache (dropParent root target), true, false⟩ := by
        simp [processSourceNoTarget, hsp, hmv]
      show getOrderC (handleDrop root target [src] sys).cache (dropParent root target) = o2
      have hdrop : handleDrop root target [src] sys = sys := by
        simp only [handleDrop]
        rw [show [src].length = 1 from rfl, hps, hpnt]
        simp
      rw [hdrop, ho2]
    · have hpnt : processSourceNoTarget
            ⟨sys, dropParent root target,
              getOrderC sys.cache (dropParent root target), true, false⟩
            src (dirnameP src) (basenameP src)
          = commitOrder ⟨sys, dropParent root target,
              getOrderC sys.cache (dropParent root target), true, false⟩ o2 := by
        simp [processSourceNoTarget, hsp, hmv]
      have hdrop : handleDrop root target [src] sys
          = { sys with
                cache := setOrderC (setOrderC sys.cache (dropParent root target) o2)
                  (dropParent root target) o2,
                saves := sys.saves + 1 } := by
        simp only [handleDrop]
        rw [show [src].length = 1 from rfl, hps, hpnt]
        simp [commitOrder]
      rw [hdrop]
      simp [getOrderC_setOrderC]
  · intro order fileName hf
    have hfi := jsIndexOf_of_mem hf
    have hlt := indexOf_lt_length_of_mem hf
    constructor
    · intro hlast
      simp only [moveToEnd, hfi]
      rw [if_neg]
      simp only [not_and, ne_eq, Decidable.not_not]
      intro h5
      omega
    · intro hnotlast
      simp only [moveToEnd, hfi]
      rw [if_pos (by constructor <;> omega)]
      have he : ((List.indexOf fileName order : Int)).toNat = List.indexOf fileName order := by
        omega
      rw [he]



/-- C3 (amended): the freeze step replaces an empty stored order with the
    full live child listing in directory-listing order, and leaves a
    non-empty stored order unchanged: missing live names are not appended
    to a partial order, and no sorting by the default comparator occurs. -/
theorem spec_c3 (fs : List (List String)) (dir : List String) (order : List String) :
    (order = [] → freezeOrder fs dir order = childrenOf fs dir)
    ∧ (order ≠ [] → freezeOrder fs dir order = order) := by
  constructor
  · intro h
    simp [freezeOrder, h]
  · intro h
    simp [freezeOrder, List.length_eq_zero, h]

/-- C3 counterexample: with non-empty stored order ["A"] and live
    children A and B, the freeze pass of handleDrop does not append the
    live name B, contradicting the claim that every live child name
    absent from the stored order is appended. -/
theorem spec_c3_counterexample :
    "B" ∈ childrenOf [["r", "A"], ["r", "B"]] ["r"]
    ∧ "B" ∉ freezeOrder [["r", "A"], ["r", "B"]] ["r"] ["A"] := by
  decide

theorem spec_c3_witness :
    freezeOrder [["r", "A"]] ["r"] [] = childrenOf [["r", "A"]] ["r"]
    ∧ freezeOrder [] ["r"] ["A"] = ["A"] :=
  ⟨(spec_c3 [["r", "A"]] ["r"] []).1 rfl, (spec_c3 [] ["r"] ["A"]).2 (by decide)⟩

/-- C6 (amended): with a file target and a sibling source, the drop is a
    no-op when the source name is missing from the frozen order or when
    source and target indices coincide; a missing target index is not
    skipped: toIndex falls back to order.length and the source moves to
    the end of the order. -/
theorem spec_c6 (order : List String) (fileName targetName : String) :
    (fileName ∉ order → reorderOnFile order fileName targetName = (order, false))
    ∧ (fileName ∈ order → targetName ∈ order →
        List.indexOf fileName order = List.indexOf targetName order →
        reorderOnFile order fileName targetName = (order, false))
    ∧ (fileName ∈ order → targetName ∉ order →
        reorderOnFile order fileName targetName
          = (order.eraseIdx (List.indexOf fileName order) ++ [fileName], true)) := by
  refine ⟨?_, ?_, ?_⟩
  · intro h
    have hfi : jsIndexOf order fileName = -1 := by simp [jsIndexOf, h]
    simp [reorderOnFile, hfi]
  · intro hf ht heq
    have hfi := jsIndexOf_of_mem hf
    have hti := jsIndexOf_of_mem ht
    have hne2 : ¬((List.indexOf fileName order : Int) ≠ -1
        ∧ (List.indexOf fileName order : Int)
          ≠ (if (List.indexOf targetName order : Int) = -1 then (order.length : Int)
             else (List.indexOf targetName order : Int))) := by
      rw [if_neg (by omega)]
      simp only [not_and, ne_eq, Decidable.not_not]
      intro h5
      exact_mod_cast heq
    simp only [reorderOnFile, hfi, hti]
    rw [if_neg hne2]
  · intro hf ht
    have hfi := jsIndexOf_of_mem hf
    have hti : jsIndexOf order targetName = -1 := by simp [jsIndexOf, ht]
    have hflt := indexOf_lt_length_of_mem hf
    have htoidx : (if jsIndexOf order targetName = -1 then (order.length : Int)
        else jsIndexOf order targetName) = (order.length : Int) := by
      simp [hti]
    simp only [reorderOnFile, htoidx, hfi]
    rw [if_pos (⟨by omega, by omega⟩ :
      ((List.indexOf fileName order : Int) ≠ -1
        ∧ (List.indexOf fileName order : Int) ≠ (order.length : Int)))]
    rw [if_pos (by omega : (List.indexOf fileName order : Int) < (order.length : Int))]
    have hf2 : ((List.indexOf fileName order : Int)).toNat = List.indexOf fileName order := by
      omega
    have hidx : ((order.length : Int) - 1).toNat
        = (order.eraseIdx (List.indexOf fileName order)).length := by
      rw [List.length_eraseIdx, if_pos hflt]
      omega
    rw [hf2, hidx, List.insertIdx_length_self]

/-- C6 counterexample: a target name absent from the order is not a
    no-op: dropping sibling A onto the unlisted target T moves A to the
    end, changing [A,B] although the claim requires it unchanged. -/
theorem spec_c6_counterexample :
    (reorderOnFile ["A", "B"] "A" "T").1 ≠ ["A", "B"] := by
  decide

theorem spec_c6_witness :
    reorderOnFile ["A", "B"] "Z" "B" = (["A", "B"], false) :=
  (spec_c6 ["A", "B"] "Z" "B").1 (by decide)

/-- C10: when reading the element's directory fails, getChildren returns
    the empty sequence instead of propagating the error to the caller. -/
theorem spec_c10 (order : List String) : getChildren none order = [] := rfl

theorem nodup_insertIdx_erase (order : List String) (a : String) (h : order.Nodup)
    (n : Nat) : (List.insertIdx n a (order.erase a)).Nodup := by
  by_cases hn : n ≤ (order.erase a).length
  · have hperm := List.perm_insertIdx a (order.erase a) hn
    have hcons : (a :: order.erase a).Nodup := by
      rw [List.nodup_cons]
      exact ⟨h.not_mem_erase, List.Nodup.erase a h⟩
    exact hperm.symm.nodup hcons
  · rw [List.insertIdx_of_length_lt _ _ _ (by omega)]
    exact List.Nodup.erase a h

/-- C4 (amended): every same-directory operation preserves uniqueness of
    the stored order: a same-folder reorder onto a file target, a
    same-folder move to the end, and the guarded appends of the newFile,
    newFolder and paste commands all map a duplicate-free order to a
    duplicate-free order.  (A cross-directory drop can violate it; see
    the counterexample.) -/
theorem spec_c4 (order : List String) (a b : String) (h : order.Nodup) :
    (reorderOnFile order a b).1.Nodup
    ∧ (moveToEnd order a).1.Nodup
    ∧ (guardedAppend order a).Nodup := by
  refine ⟨?_, ?_, ?_⟩
  · by_cases hmem : a ∈ order
    · have hfi := jsIndexOf_of_mem hmem
      simp only [reorderOnFile, hfi]
      split <;> split
      all_goals
        first
        | exact h
        | (have he : ((List.indexOf a order : Int)).toNat = List.indexOf a order := by omega
           rw [he, List.eraseIdx_indexOf_eq_erase]
           exact nodup_insertIdx_erase order a h _)
    · have hfi : jsIndexOf order a = -1 := by simp [jsIndexOf, hmem]
      simp [reorderOnFile, hfi]
      exact h
  · by_cases hmem : a ∈ order
    · have hfi := jsIndexOf_of_mem hmem
      simp only [moveToEnd, hfi]
      split
      · have he : ((List.indexOf a order : Int)).toNat = List.indexOf a order := by omega
        rw [he, List.eraseIdx_indexOf_eq_erase]
        rw [List.nodup_append]
        refine ⟨List.Nodup.erase a h, List.nodup_singleton a, ?_⟩
        intro x hx hxa
        simp at hxa
        subst hxa
        exact h.not_mem_erase hx
      · exact h
    · have hfi : jsIndexOf order a = -1 := by simp [jsIndexOf, hmem]
      simp [moveToEnd, hfi]
      exact h
  · by_cases hmem : a ∈ order
    · simp [guardedAppend, hmem, h]
    · simp only [guardedAppend]
      rw [if_pos (by simpa using hmem)]
      rw [List.nodup_append]
      refine ⟨h, List.nodup_singleton a, ?_⟩
      intro x hx hxa
      simp at hxa
      subst hxa
      exact hmem hx

/-- C4 counterexample: starting from a clean state, three drag-and-drop
    operations (a same-folder reorder in r, a move of r/x into folder b,
    and a drop of b/x back onto file r/y) leave directory r's stored
    order with the name x twice: the cross-directory insert at the file
    target does not guard against a stale duplicate. -/
theorem spec_c4_counterexample :
    ¬ (getOrderC (handleDrop [] (some ⟨["r", "y"], FileType.file⟩) [["b", "x"]]
        (handleDrop [] (some ⟨["b"], FileType.directory⟩) [["r", "x"]]
          (handleDrop [] (some ⟨["r", "x"], FileType.file⟩) [["r", "y"]]
            ⟨[["r", "x"], ["r", "y"], ["b", "z"]], [], 0, []⟩))).cache ["r"]).Nodup := by
  decide

theorem spec_c4_witness :
    (reorderOnFile ["A", "B"] "A" "B").1.Nodup
    ∧ (moveToEnd ["A", "B"] "A").1.Nodup
    ∧ (guardedAppend ["A", "B"] "A").Nodup :=
  spec_c4 ["A", "B"] "A" "B" (by decide)

theorem length_filter_partition (l : List Entry) (p : Entry → Bool) :
    (l.filter (fun e => !(p e))).length + (l.filter p).length = l.length := by
  induction l with
  | nil => simp
  | cons x xs ih =>
    by_cases hx : p x <;> simp [hx] <;> omega

/-- C5: the merged display order contains every live entry exactly once
    except the reserved names node_modules, .git, .DS_Store and .vscode;
    its length equals the live count minus the excluded count, and stale
    stored names never appear and cause no error, for every stored
    order. -/
theorem spec_c5 (children : List Entry) (order : List String) :
    ((getChildren (some children) order).length
        = children.length
          - (children.filter (fun e => excludedNames.contains e.name)).length)
    ∧ (∀ e : Entry, e ∈ getChildren (some children) order ↔
        e ∈ children ∧ e.name ∉ excludedNames)
    ∧ ((children.map Entry.name).Nodup →
        ∀ e ∈ children, e.name ∉ excludedNames →
          (getChildren (some children) order).count e = 1) := by
  have hg : getChildren (some children) order
      = sortEntries (fun a b => decide (sortCmp order a b ≤ 0))
          (children.filter (fun e => !(excludedNames.contains e.name))) := rfl
  have hperm := sortEntries_perm (fun a b => decide (sortCmp order a b ≤ 0))
    (children.filter (fun e => !(excludedNames.contains e.name)))
  refine ⟨?_, ?_, ?_⟩
  · rw [hg, hperm.length_eq]
    have := length_filter_partition children (fun e => excludedNames.contains e.name)
    omega
  · intro e
    rw [hg]
    rw [hperm.mem_iff]
    simp [List.mem_filter]
  · intro hnd e he hex
    have hnd2 : children.Nodup := List.Nodup.of_map Entry.name hnd
    rw [hg, hperm.count_eq, List.count_filter (by simpa using hex)]
    exact List.count_eq_one_of_mem hnd2 he

theorem spec_c5_witness :
    (getChildren (some [⟨"lib", FileType.directory⟩, ⟨"a.ts", FileType.file⟩]) ["z.ts"]).count
      ⟨"a.ts", FileType.file⟩ = 1 :=
  (spec_c5 [⟨"lib", FileType.directory⟩, ⟨"a.ts", FileType.file⟩] ["z.ts"]).2.2
    (by decide) ⟨"a.ts", FileType.file⟩ (by decide) (by decide)

theorem processSourceNoTarget_saves (b : Batch) (src sp : List String) (n : String) :
    (processSourceNoTarget b src sp n).sys.saves = b.sys.saves := by
  simp only [processSourceNoTarget, commitOrder]
  repeat' split
  all_goals simp

theorem processSource_saves (target : Option TEntry) (b : Batch) (src : List String) :
    (processSource target b src).sys.saves = b.sys.saves := by
  rcases target with _ | t
  · exact processSourceNoTarget_saves b src (dirnameP src) (basenameP src)
  · simp only [processSource]
    by_cases hft : t.type = FileType.file
    · simp only [hft, if_pos rfl, commitOrder]
      repeat' split
      all_goals
        first
        | rfl
        | exact processSourceNoTarget_saves b src (dirnameP src) (basenameP src)
        | simp
    · simp only [hft, if_neg hft]
      exact processSourceNoTarget_saves b src (dirnameP src) (basenameP src)

theorem foldl_processSource_saves (target : Option TEntry) (l : List (List String)) :
    ∀ b : Batch, ((l.foldl (processSource target) b).sys.saves = b.sys.saves) := by
  induction l with
  | nil => intro b; rfl
  | cons x xs ih =>
    intro b
    simp only [List.foldl_cons]
    rw [ih, processSource_saves]

/-- C7 (amended): persistence through updateOrder runs at most once per
    drop batch and is skipped entirely when no source changed the order;
    the claim's local-copy part is false and refuted separately: when the
    cached order is non-empty, splices act on the cached array itself. -/
theorem spec_c7 (root : List String) (target : Option TEntry)
    (sources : List (List String)) (sys : Sys) :
    (handleDrop root target sources sys).saves ≤ sys.saves + 1
    ∧ ((handleDropAfter root target sources sys sources.length).orderChanged = false →
        (handleDrop root target sources sys).saves = sys.saves) := by
  have hinit : (dropInit root target sys).sys.saves = sys.saves := by
    simp only [dropInit]
    split <;> rfl
  have hb : (handleDropAfter root target sources sys sources.length).sys.saves
      = sys.saves := by
    simp only [handleDropAfter]
    rw [foldl_processSource_saves]
    exact hinit
  constructor
  · simp only [handleDrop]
    split
    · simp [hb]
    · simp [hb]
  · intro hch
    simp only [handleDrop, hch]
    simp [hb]

/-- C7 counterexample: with a non-empty cached order, the in-memory
    cache entry observable after the first of two dragged sources differs
    from both the pre-batch value and the post-batch value: mutations are
    applied to the cached array, not to a local copy. -/
theorem spec_c7_counterexample :
    getOrderC (handleDropAfter [] (some ⟨["r", "A"], FileType.file⟩)
        [["q", "x"], ["q", "y"]]
        ⟨[["r", "A"], ["q", "x"], ["q", "y"]], [(["r"], ["A"])], 0, []⟩ 1).sys.cache ["r"]
      ≠ getOrderC (⟨[["r", "A"], ["q", "x"], ["q", "y"]],
          [(["r"], ["A"])], 0, []⟩ : Sys).cache ["r"]
    ∧ getOrderC (handleDropAfter [] (some ⟨["r", "A"], FileType.file⟩)
        [["q", "x"], ["q", "y"]]
        ⟨[["r", "A"], ["q", "x"], ["q", "y"]], [(["r"], ["A"])], 0, []⟩ 1).sys.cache ["r"]
      ≠ getOrderC (handleDrop [] (some ⟨["r", "A"], FileType.file⟩)
        [["q", "x"], ["q", "y"]]
        ⟨[["r", "A"], ["q", "x"], ["q", "y"]], [(["r"], ["A"])], 0, []⟩).cache ["r"] := by
  decide

theorem spec_c7_witness :
    (handleDrop [] none [] ⟨[], [], 0, []⟩).saves ≤ 0 + 1
    ∧ (handleDrop [] none [] ⟨[], [], 0, []⟩).saves = 0 := by
  have h := spec_c7 [] none [] ⟨[], [], 0, []⟩
  exact ⟨h.1, h.2 (by decide)⟩

/-- C1 (amended): the code implements the looser cross-directory variant,
    not the sibling-only policy: a dragged source whose parent differs
    from the drop context directory is not skipped.  For a file target,
    when the rename into the context directory succeeds, the source file
    is physically moved there and its name is inserted into the stored
    order at the target's index (at the end when the target name is
    absent), and the move is recorded. -/
theorem spec_c1 (sys : Sys) (root : List String) (t : TEntry) (src : List String)
    (htf : t.type = FileType.file)
    (hsp : dirnameP src ≠ dirnameP t.path)
    (hne : getOrderC sys.cache (dirnameP t.path) ≠ [])
    (hsrc : src ∈ sys.fs)
    (hdst : (dirnameP t.path ++ [basenameP src]) ∉ sys.fs) :
    getOrderC (handleDrop root (some t) [src] sys).cache (dirnameP t.path)
      = List.insertIdx
          (if basenameP t.path ∈ getOrderC sys.cache (dirnameP t.path) then
            List.indexOf (basenameP t.path) (getOrderC sys.cache (dirnameP t.path))
          else (getOrderC sys.cache (dirnameP t.path)).length)
          (basenameP src) (getOrderC sys.cache (dirnameP t.path))
    ∧ (handleDrop root (some t) [src] sys).moves
      = sys.moves ++ [(src, dirnameP t.path ++ [basenameP src])] := by
  have hpar : dropParent root (some t) = dirnameP t.path := by
    simp [dropParent, htf]
  have hol : ¬((getOrderC sys.cache (dirnameP t.path)).length = 0) := by
    simpa [List.length_eq_zero] using hne
  have hinit : dropInit root (some t) sys
      = ⟨sys, dirnameP t.path, getOrderC sys.cache (dirnameP t.path), true, false⟩ := by
    simp only [dropInit, hpar]
    rw [if_neg hol]
  have hro : renameOk sys.fs src (dirnameP t.path ++ [basenameP src]) = true := by
    simp only [renameOk, Bool.and_eq_true, Bool.not_eq_true]
    constructor
    · simpa using hsrc
    · simpa using hdst
  have hidx : (if jsIndexOf (getOrderC sys.cache (dirnameP t.path)) (basenameP t.path) = -1
        then ((getOrderC sys.cache (dirnameP t.path)).length : Int)
        else jsIndexOf (getOrderC sys.cache (dirnameP t.path)) (basenameP t.path)).toNat
      = if basenameP t.path ∈ getOrderC sys.cache (dirnameP t.path) then
          List.indexOf (basenameP t.path) (getOrderC sys.cache (dirnameP t.path))
        else (getOrderC sys.cache (dirnameP t.path)).length := by
    by_cases htn : basenameP t.path ∈ getOrderC sys.cache (dirnameP t.path)
    · rw [jsIndexOf_of_mem htn, if_neg (by omega), if_pos htn]
      omega
    · rw [show jsIndexOf (getOrderC sys.cache (dirnameP t.path)) (basenameP t.path) = -1
          from by simp [jsIndexOf, htn]]
      rw [if_pos rfl, if_neg htn]
      omega
  have hdrop : handleDrop root (some t) [src] sys
      = { fs := renameFs sys.fs src (dirnameP t.path ++ [basenameP src]),
          cache := setOrderC
            (setOrderC sys.cache (dirnameP t.path)
              (List.insertIdx
                (if jsIndexOf (getOrderC sys.cache (dirnameP t.path)) (basenameP t.path) = -1
                  then ((getOrderC sys.cache (dirnameP t.path)).length : Int)
                  else jsIndexOf (getOrderC sys.cache (dirnameP t.path)) (basenameP t.path)).toNat
                (basenameP src) (getOrderC sys.cache (dirnameP t.path))))
            (dirnameP t.path)
            (List.insertIdx
              (if jsIndexOf (getOrderC sys.cache (dirnameP t.path)) (basenameP t.path) = -1
                then ((getOrderC sys.cache (dirnameP t.path)).length : Int)
                else jsIndexOf (getOrderC sys.cache (dirnameP t.path)) (basenameP t.path)).toNat
              (basenameP src) (getOrderC sys.cache (dirnameP t.path))),
          saves := sys.saves + 1,
          moves := sys.moves ++ [(src, dirnameP t.path ++ [basenameP src])] } := by
    simp only [handleDrop, show [src].length = 1 from rfl]
    rw [show handleDropAfter root (some t) [src] sys 1
        = processSource (some t) (dropInit root (some t) sys) src from rfl]
    rw [hinit]
    simp only [processSource, htf, if_pos rfl, if_neg hsp, hro, if_true, commitOrder]
  constructor
  · rw [hdrop]
    show getOrderC (setOrderC _ (dirnameP t.path) _) (dirnameP t.path) = _
    rw [getOrderC_setOrderC, hidx]
  · rw [hdrop]

/-- C1 counterexample: dropping q/x onto file r/B changes directory r's
    stored order and performs a filesystem move although the source is
    not a sibling of the drop context directory, refuting the sibling-only
    no-op claim on this code. -/
theorem spec_c1_counterexample :
    getOrderC (handleDrop [] (some ⟨["r", "B"], FileType.file⟩) [["q", "x"]]
        ⟨[["r", "A"], ["r", "B"], ["q", "x"]], [(["r"], ["A", "B"])], 0, []⟩).cache ["r"]
      ≠ ["A", "B"]
    ∧ (handleDrop [] (some ⟨["r", "B"], FileType.file⟩) [["q", "x"]]
        ⟨[["r", "A"], ["r", "B"], ["q", "x"]], [(["r"], ["A", "B"])], 0, []⟩).moves ≠ [] := by
  decide

theorem spec_c1_witness :
    getOrderC (handleDrop [] (some ⟨["r", "B"], FileType.file⟩) [["q", "x"]]
        ⟨[["r", "A"], ["r", "B"], ["q", "x"]], [(["r"], ["A", "B"])], 0, []⟩).cache ["r"]
      = ["A", "x", "B"] := by
  have h := (spec_c1 ⟨[["r", "A"], ["r", "B"], ["q", "x"]], [(["r"], ["A", "B"])], 0, []⟩
    [] ⟨["r", "B"], FileType.file⟩ ["q", "x"]
    rfl (by decide) (by decide) (by decide) (by decide)).1
  exact h.trans (by decide)

theorem spec_c2_witness :
    reorderOnFile ["A", "B", "C"] "C" "A" = (["C", "A", "B"], true) := by
  have h := spec_c2.1 ["A", "B", "C"] "C" "A" (by decide) (by decide) (by decide)
  exact h.trans (by decide)

theorem spec_c8_witness :
    getOrderC (handleDrop ["r"] none [["r", "A"]]
        ⟨[["r", "A"], ["r", "B"]], [(["r"], ["A", "B"])], 0, []⟩).cache ["r"]
      = ["B", "A"] := by
  have h := spec_c8.1 ⟨[["r", "A"], ["r", "B"]], [(["r"], ["A", "B"])], 0, []⟩ ["r"] none
    ["r", "A"] (by intro t ht; cases ht) (by decide) (by decide)
  exact h.trans (by decide)

/-- C9: save followed by load reproduces an identical in-memory table:
    for every order table with unique keys and unique per-key name
    sequences, the JSON document written by save parses back to the same
    table without loss. -/
theorem spec_c9 (t : List (String × List String))
    (hkeys : (t.map Prod.fst).Nodup)
    (hvals : ∀ kv ∈ t, kv.2.Nodup) :
    initTable (some (saveString t)) = t := by
  simp [initTable, saveString, parseTable_stringify]

theorem spec_c9_witness :
    initTable (some (saveString [("src", ["b.ts", "a.ts"])]))
      = [("src", ["b.ts", "a.ts"])] :=
  spec_c9 [("src", ["b.ts", "a.ts"])] (by decide) (by decide)
